import Mathlib

/-!
Verification of the cron-explain library (`lib/index.js`).

The source is a small JavaScript module.  We give a shallow embedding:

* JavaScript numbers that arise here are either exact integers or `NaN`
  (`parseInt` results); we model them as `JSNum := Option Int`, with `none`
  playing the role of `NaN`.  All integers appearing in this program are far
  below 2^53, so exact `Int` arithmetic is faithful.
* Strings are Lean `String`s; the handful of string operations the source
  uses (`split`, `trim`, `toLowerCase`, `padStart`, template literals,
  `replace` with a global literal regexp) are re-implemented below with the
  ECMAScript semantics they have on the inputs this program feeds them.
* Fallible functions (`parse`, `parseField`, and their callers, which throw
  `Error(message)`) return `Except String _` carrying the thrown message.
* Dates: the module manipulates `Date` objects through
  `setMilliseconds/setSeconds/setMinutes` and the local-time getters.  Per
  the specification the system "operates in the caller's local civil-time
  representation only" with no timezone handling, so instants are modelled
  as `Nat` — seconds of a linear civil clock since 1970-01-01 00:00:00 —
  and the getters are ordinary Gregorian calendar arithmetic.  Milliseconds
  are below the granularity of the model: `setMilliseconds(0)` is the
  identity here.
-/

namespace CronExplain

/-- A JavaScript number as produced by `parseInt(…, 10)` in this program:
either an exact integer or `NaN` (modelled as `none`).  `Array.includes`
uses SameValueZero, under which `NaN` equals `NaN`; this agrees with
`DecidableEq (Option Int)`. -/
abbrev JSNum := Option Int

/-- ECMAScript whitespace test used by `trim`, `split(/\s+/)` and
`parseInt` (ASCII whitespace; the exotic Unicode space code points never
occur in the tokens this program handles). -/
def jsIsSpace (c : Char) : Bool := c.isWhitespace

/-- Build a `String` from a character list. -/
def mkStr (cs : List Char) : String := ⟨cs⟩

/-- Does `pat` occur at the head of `l`?  (Helper for substring search and
`String.prototype.startsWith`.) -/
def listIsPre : List Char → List Char → Bool
  | [], _ => true
  | _ :: _, [] => false
  | a :: as, b :: bs => a == b && listIsPre as bs

/-- `String.prototype.startsWith`. -/
def strStartsWith (s pat : String) : Bool := listIsPre pat.data s.data

/-- Substring search on character lists. -/
def listSub (pat : List Char) : List Char → Bool
  | [] => pat.isEmpty
  | c :: rest => listIsPre pat (c :: rest) || listSub pat rest

/-- `String.prototype.includes` for a non-empty needle: substring test. -/
def strContainsSub (s pat : String) : Bool := listSub pat.data s.data

/-- Character membership in a string (`String.prototype.includes` with a
one-character needle). -/
def strContainsChar (s : String) (c : Char) : Bool := s.data.any (· == c)

/-- Split a character list at every character satisfying `p`, keeping empty
segments, exactly as `String.prototype.split` with a one-character
separator does. -/
def splitAnyList (p : Char → Bool) : List Char → List (List Char)
  | [] => [[]]
  | c :: rest =>
    let r := splitAnyList p rest
    if p c then [] :: r
    else
      match r with
      | [] => [[c]]
      | h :: t => (c :: h) :: t

/-- `s.split(d)` for a one-character separator `d` (ECMAScript semantics:
`"".split("-") = [""]`, `"-".split("-") = ["", ""]`). -/
def splitChar (s : String) (d : Char) : List String :=
  (splitAnyList (· == d) s.data).map mkStr

/-- `String.prototype.trim` (strips ECMAScript whitespace at both ends). -/
def trimStr (s : String) : String :=
  mkStr (((s.data.dropWhile jsIsSpace).reverse.dropWhile jsIsSpace).reverse)

/-- `s.trim().split(/\s+/)`: ECMAScript regexp split on whitespace runs.
On a trimmed non-empty string this is the list of whitespace-free words;
on the empty string the regexp never matches and the result is `[""]`. -/
def splitWs (s : String) : List String :=
  let t := trimStr s
  if t = "" then [""]
  else ((splitAnyList jsIsSpace t.data).map mkStr).filter (fun w => w ≠ "")

/-- `s.toLowerCase()` (all strings in play are ASCII). -/
def jsToLower (s : String) : String := mkStr (s.data.map Char.toLower)

/-- Decimal digit run folded to a `Nat`. -/
def digitsVal (ds : List Char) : Nat :=
  ds.foldl (fun a c => a * 10 + (c.toNat - 48)) 0

/-- `parseInt(s, 10)`: skip leading whitespace, optional sign, then the
longest run of decimal digits; `NaN` (`none`) when that run is empty.
Trailing garbage is ignored, exactly as in ECMAScript. -/
def jsParseInt (s : String) : JSNum :=
  let cs := s.data.dropWhile jsIsSpace
  let signAndRest : Int × List Char :=
    match cs with
    | '-' :: r => (-1, r)
    | '+' :: r => (1, r)
    | r => (1, r)
  let ds := signAndRest.2.takeWhile Char.isDigit
  if ds.isEmpty then none
  else some (signAndRest.1 * (digitsVal ds : Int))

/-- `Number.prototype.toString` on the numbers this program prints:
an exact integer prints in decimal, `NaN` prints as `"NaN"`. -/
def jsNumToString (n : JSNum) : String :=
  match n with
  | some i =>
    match i with
    | Int.ofNat m => Nat.repr m
    | Int.negSucc m => "-" ++ Nat.repr (m + 1)
  | none => "NaN"

/-- `str.padStart(2, '0')`. -/
def padStart2 (s : String) : String :=
  if s.length = 0 then "00"
  else if s.length = 1 then "0" ++ s
  else s

/-- The `for (let i = start; i <= stop; i += step)` collection loop, with
`fuel` bounding the number of iterations.  Every call site first
establishes `1 ≤ step` (the step branch of `parseField` has already thrown
on smaller steps; the other loops use `step = 1`), and passes enough fuel,
so the fuel never runs out on a reachable input. -/
def stepRangeAux : Nat → Int → Int → Int → List Int
  | 0, _, _, _ => []
  | fuel + 1, i, stop, step =>
    if i ≤ stop then i :: stepRangeAux fuel (i + step) stop step else []

/-- Values of the loop `for (let i = start; i <= stop; i += step)`. -/
def stepRange (start stop step : Int) : List Int :=
  stepRangeAux (stop + 1 - start).toNat start stop step

/-- `[...new Set(values)]`: deduplication keeping first occurrences, with
SameValueZero equality.  `fuel` bounds the recursion; `l.length` always
suffices. -/
def keepFirstAux : Nat → List JSNum → List JSNum
  | 0, _ => []
  | _ + 1, [] => []
  | fuel + 1, a :: l => a :: keepFirstAux fuel (l.filter (fun b => !(b == a)))

/-- `[...new Set(values)]`. -/
def keepFirst (l : List JSNum) : List JSNum := keepFirstAux l.length l

/-- The comparator `(a, b) => a - b` asked "is `a` strictly before `b`?":
its result for a `NaN` operand is `NaN`, which `Array.prototype.sort`
coerces to `+0` ("equal"), hence `false` here. -/
def numLtB (x y : JSNum) : Bool :=
  match x, y with
  | some a, some b => a < b
  | _, _ => false

/-- One insertion step of a stable numeric sort: `x` is placed before the
first element strictly greater than it under the comparator. -/
def insertNum (x : JSNum) : List JSNum → List JSNum
  | [] => [x]
  | y :: l => if numLtB x y then x :: y :: l else y :: insertNum x l

/-- Insertion sort with the numeric comparator; used only when the
comparator is consistent (no `NaN`), where ECMAScript fully determines the
sort result. -/
def sortVals : List JSNum → List JSNum
  | [] => []
  | x :: l => insertNum x (sortVals l)

/-- `values.sort((a, b) => a - b)`.  When every entry is an integer the
comparator is consistent and ECMAScript determines the result: the
ascending reordering, which `sortVals` computes.  When a `NaN` entry is
present the comparator is inconsistent (its `NaN` result is coerced to
`+0`, "equal"), the ECMAScript outcome is implementation-defined — V8
returns `[3, NaN, 1]` unchanged, for instance — and the model returns the
input unchanged: one engine-agnostic choice that no theorem below leans
on, so no ordering of the integer entries is invented for such lists. -/
def jsSortNum (l : List JSNum) : List JSNum :=
  if l.all (fun x => x.isSome) then sortVals l else l

/-- Concatenation of `f` over a list (`Array.prototype.push` inside nested
loops). -/
def catMap (f : α → List β) : List α → List β
  | [] => []
  | a :: l => f a ++ catMap f l

/-- Replace every (leftmost, non-overlapping) occurrence of `pat` by `r`,
as `String.prototype.replace` with a global literal regexp does.  `fuel`
bounds the recursion; the input length always suffices. -/
def replListAux : Nat → List Char → List Char → List Char → List Char
  | 0, _, _, l => l
  | _ + 1, _, _, [] => []
  | fuel + 1, pat, r, c :: rest =>
    if pat ≠ [] ∧ listIsPre pat (c :: rest) then
      r ++ replListAux fuel pat r ((c :: rest).drop pat.length)
    else c :: replListAux fuel pat r rest

/-- `s.replace(new RegExp(pat, 'gi'), r)` for the three-letter name
abbreviations; the subject string has already been lowercased, so the
case-insensitive flag reduces to plain substring matching. -/
def replaceAllStr (s pat r : String) : String :=
  mkStr (replListAux (s.data.length + 1) pat.data r.data s.data)

/-! ## Field tables (source lines 11–35) -/

/-- `MONTHS`: index 0 is the empty-string placeholder. -/
def MONTHS : List String :=
  ["", "January", "February", "March", "April", "May", "June",
   "July", "August", "September", "October", "November", "December"]

/-- `MONTH_ABBREVS`, in object-literal insertion order, with each numeric
value already rendered as the string `replace` substitutes. -/
def MONTH_ABBREVS : List (String × String) :=
  [("jan", "1"), ("feb", "2"), ("mar", "3"), ("apr", "4"), ("may", "5"),
   ("jun", "6"), ("jul", "7"), ("aug", "8"), ("sep", "9"), ("oct", "10"),
   ("nov", "11"), ("dec", "12")]

/-- `DAYS`. -/
def DAYS : List String :=
  ["Sunday", "Monday", "Tuesday", "Wednesday", "Thursday", "Friday", "Saturday"]

/-- `DAY_ABBREVS`, in insertion order. -/
def DAY_ABBREVS : List (String × String) :=
  [("sun", "0"), ("mon", "1"), ("tue", "2"), ("wed", "3"), ("thu", "4"),
   ("fri", "5"), ("sat", "6")]

/-- `FIELD_RANGES[fieldName]`: `none` models the `undefined` an unknown
key would yield (the subsequent `.min` access would throw a `TypeError`;
`parse` only ever passes the six known names). -/
def fieldRanges (n : String) : Option (Int × Int) :=
  if n = "second" then some (0, 59)
  else if n = "minute" then some (0, 59)
  else if n = "hour" then some (0, 23)
  else if n = "day of month" then some (1, 31)
  else if n = "month" then some (1, 12)
  else if n = "day of week" then some (0, 7)
  else none

/-- The month / day-of-week name-substitution pass of `parseField`
(source lines 84–94): sequential global replacement over the lowercased
token, one table entry at a time, in insertion order. -/
def applyAbbrevs (fieldName : String) (s : String) : String :=
  if fieldName = "month" then
    MONTH_ABBREVS.foldl (fun acc p => replaceAllStr acc p.1 p.2) s
  else if fieldName = "day of week" then
    DAY_ABBREVS.foldl (fun acc p => replaceAllStr acc p.1 p.2) s
  else s

/-! ## Parsing (source lines 37–168) -/

/-- The `type` tag of a parsed field.  The source initialises the field to
`'unknown'`, but every successful return has overwritten it with one of
these five values. -/
inductive CronFieldType where
  | wildcard | step | list | range | single
deriving DecidableEq

/-- A `ParsedField` (`{raw, type, values}`). -/
structure ParsedField where
  raw : String
  kind : CronFieldType
  values : List JSNum
deriving DecidableEq

/-- `parseField(field, fieldName)` (source lines 75–168).  Notes kept from
the source semantics:
* the step loop pushes nothing when a bound is `NaN` (`i <= NaN` and
  `NaN <= end` are both false), and `parseField` has already thrown when
  the step is `NaN` or `< 1`, so the loop is modelled by `stepRange` with
  a genuine integer step;
* list items are pushed through `parseInt` unchecked, so a malformed item
  contributes `NaN`;
* there is no bounds or emptiness check anywhere. -/
def parseField (field : String) (fieldName : String) : Except String ParsedField :=
  match fieldRanges fieldName with
  | none => Except.error ("TypeError: cannot read range of field " ++ fieldName)
  | some (mn, mx) =>
    let normalized := applyAbbrevs fieldName (jsToLower field)
    if normalized = "*" then
      Except.ok ⟨field, CronFieldType.wildcard, (stepRange mn mx 1).map some⟩
    else if strContainsChar normalized '/' then
      let ps := splitChar normalized '/'
      let stepN := jsParseInt (ps.getD 1 "")
      match stepN with
      | none => Except.error ("Invalid step value in field \x27" ++ fieldName ++ "\x27: " ++ field)
      | some st =>
        if st < 1 then
          Except.error ("Invalid step value in field \x27" ++ fieldName ++ "\x27: " ++ field)
        else
          let rangeStr := ps.getD 0 ""
          let se : JSNum × JSNum :=
            if rangeStr = "*" then (some mn, some mx)
            else if strContainsChar rangeStr '-' then
              let rp := (splitChar rangeStr '-').map jsParseInt
              (rp.getD 0 none, rp.getD 1 none)
            else (jsParseInt rangeStr, some mx)
          let vals : List Int :=
            match se.1, se.2 with
            | some a, some b => stepRange a b st
            | _, _ => []
          Except.ok ⟨field, CronFieldType.step, vals.map some⟩
    else if strContainsChar normalized ',' then
      let items := splitChar normalized ','
      let vals := catMap (fun item =>
        if strContainsChar item '-' then
          let rp := (splitChar item '-').map jsParseInt
          match rp.getD 0 none, rp.getD 1 none with
          | some a, some b => (stepRange a b 1).map some
          | _, _ => ([] : List JSNum)
        else [jsParseInt item]) items
      Except.ok ⟨field, CronFieldType.list, jsSortNum (keepFirst vals)⟩
    else if strContainsChar normalized '-' then
      let rp := (splitChar normalized '-').map jsParseInt
      let vals : List Int :=
        match rp.getD 0 none, rp.getD 1 none with
        | some a, some b => stepRange a b 1
        | _, _ => []
      Except.ok ⟨field, CronFieldType.range, vals.map some⟩
    else
      match jsParseInt normalized with
      | none => Except.error ("Invalid value in field \x27" ++ fieldName ++ "\x27: " ++ field)
      | some v => Except.ok ⟨field, CronFieldType.single, [some v]⟩

/-- The value a `parse` call is not given: anything that is not a string.
`parse` rejects every such value (and the empty string) up front with one
fixed message, so one constructor suffices for all of them. -/
inductive JSVal where
  | str (s : String)
  | nonString
deriving DecidableEq

/-- The `fields` object built by `parse`: one entry per field name, the
`second` entry present exactly when the expression has six fields. -/
structure CronFields where
  second : Option ParsedField
  minute : ParsedField
  hour : ParsedField
  dayOfMonth : ParsedField
  month : ParsedField
  dayOfWeek : ParsedField
deriving DecidableEq

/-- A `ParsedExpression` (`{expression, isExtended, fields}`). -/
structure ParsedCron where
  expression : String
  isExtended : Bool
  fields : CronFields
deriving DecidableEq

/-- `parse(expression)` (source lines 42–67).  Fields are parsed in
positional order, and the first `parseField` throw propagates, matching
the `forEach` loop. -/
def parse (v : JSVal) : Except String ParsedCron :=
  match v with
  | JSVal.nonString =>
    Except.error "Invalid cron expression: must be a non-empty string"
  | JSVal.str s =>
    if s = "" then
      Except.error "Invalid cron expression: must be a non-empty string"
    else
      let parts := splitWs s
      if parts.length < 5 ∨ parts.length > 6 then
        Except.error ("Invalid cron expression: expected 5 or 6 fields, got "
          ++ Nat.repr parts.length)
      else
        match parts with
        | [mi, h, dm, mo, dw] => do
          let fmi ← parseField mi "minute"
          let fh ← parseField h "hour"
          let fdm ← parseField dm "day of month"
          let fmo ← parseField mo "month"
          let fdw ← parseField dw "day of week"
          pure ⟨s, false, ⟨none, fmi, fh, fdm, fmo, fdw⟩⟩
        | [se, mi, h, dm, mo, dw] => do
          let fse ← parseField se "second"
          let fmi ← parseField mi "minute"
          let fh ← parseField h "hour"
          let fdm ← parseField dm "day of month"
          let fmo ← parseField mo "month"
          let fdw ← parseField dw "day of week"
          pure ⟨s, true, ⟨some fse, fmi, fh, fdm, fmo, fdw⟩⟩
        | _ =>
          Except.error ("Invalid cron expression: expected 5 or 6 fields, got "
            ++ Nat.repr parts.length)

/-! ## Explanation generator (source lines 170–351) -/

/-- `formatList(items)` (source lines 346–351). -/
def joinWith (sep : String) : List String → String
  | [] => ""
  | [a] => a
  | a :: rest => a ++ sep ++ joinWith sep rest

/-- `formatList(items)`: Oxford-comma list. -/
def formatList : List String → String
  | [] => ""
  | [a] => a
  | [a, b] => a ++ " and " ++ b
  | l => joinWith ", " l.dropLast ++ ", and " ++ l.getLastD ""

/-- `formatTime(hour, minute, second)` (source lines 333–341).  The third
argument is `none` when the caller passed `null` — or `undefined`, which
triggers the `= null` default — i.e. whenever no second is printed. -/
def formatTime (h m : JSNum) (s : Option JSNum) : String :=
  padStart2 (jsNumToString h) ++ ":" ++ padStart2 (jsNumToString m) ++
    match s with
    | some sv => ":" ++ padStart2 (jsNumToString sv)
    | none => ""

/-- `isExtended ? fields.second : null` — the second field handed to the
time builder (`undefined` on a five-field parse behaves like `null` in
every use the builder makes of it). -/
def timeSecondField (flds : CronFields) (isExt : Bool) : Option ParsedField :=
  if isExt then flds.second else none

/-- `second ? second.values[0] : null`: the third argument of
`formatTime`.  An out-of-range `values[0]` is `undefined`, which the
`= null` default parameter of `formatTime` turns back into `null`. -/
def timeSecondArg (flds : CronFields) (isExt : Bool) : Option JSNum :=
  match timeSecondField flds isExt with
  | some sf => sf.values.head?
  | none => none

/-- `buildTimePart(fields, isExtended)` (source lines 209–251).  The two
step-pattern `if` blocks only return from inside a nested test, falling
through otherwise; since the blocks are side-effect free this flattens to
an `if`-chain with conjoined conditions (the two chains cannot overlap:
the third needs `minute.type === 'single'`, the second
`minute.type === 'step'`). -/
def buildTimePart (flds : CronFields) (isExt : Bool) : String :=
  let minute := flds.minute
  let hour := flds.hour
  if minute.kind = CronFieldType.wildcard ∧ hour.kind = CronFieldType.wildcard then
    match timeSecondField flds isExt with
    | some sf =>
      if sf.kind = CronFieldType.wildcard then "every second" else "every minute"
    | none => "every minute"
  else if minute.kind = CronFieldType.step ∧ strStartsWith minute.raw "*/"
      ∧ hour.kind = CronFieldType.wildcard then
    "every " ++ jsNumToString (jsParseInt ((splitChar minute.raw '/').getD 1 ""))
      ++ " minutes"
  else if hour.kind = CronFieldType.step ∧ strStartsWith hour.raw "*/"
      ∧ minute.kind = CronFieldType.single ∧ minute.values.getD 0 none = some 0 then
    "every " ++ jsNumToString (jsParseInt ((splitChar hour.raw '/').getD 1 ""))
      ++ " hours"
  else
    let times := catMap
      (fun h => minute.values.map (fun m => formatTime h m (timeSecondArg flds isExt)))
      hour.values
    match times with
    | [t] => "at " ++ t
    | ts =>
      if ts.length ≤ 5 then "at " ++ formatList ts
      else "at " ++ Nat.repr ts.length ++ " different times"

/-- `MONTHS[m]` under a `JSNum` index, stringified the way the template
literal / `formatList` renders it (`undefined` prints as `"undefined"`,
and `MONTHS[0]` is the empty string). -/
def monthNameOf (j : JSNum) : String :=
  match j with
  | some n => if 0 ≤ n then MONTHS.getD n.toNat "undefined" else "undefined"
  | none => "undefined"

/-- `buildDatePart(fields)` (source lines 256–291); `none` models the
`null` return. -/
def buildDatePart (flds : CronFields) : Option String :=
  let dom := flds.dayOfMonth
  let month := flds.month
  if dom.kind = CronFieldType.wildcard ∧ month.kind = CronFieldType.wildcard then
    none
  else
    let domParts : List String :=
      if dom.kind = CronFieldType.wildcard then []
      else if dom.kind = CronFieldType.single then
        ["on day " ++ (match dom.values.head? with
          | some j => jsNumToString j
          | none => "undefined")]
      else if dom.values.length ≤ 5 then
        ["on days " ++ formatList (dom.values.map jsNumToString)]
      else
        ["on " ++ Nat.repr dom.values.length ++ " days of the month"]
    let monthParts : List String :=
      if month.kind = CronFieldType.wildcard then []
      else
        let monthNames := month.values.map monthNameOf
        match monthNames with
        | [nm] => ["in " ++ nm]
        | nms =>
          if nms.length ≤ 4 then ["in " ++ formatList nms]
          else ["in " ++ Nat.repr nms.length ++ " months"]
    some (joinWith " " (domParts ++ monthParts))

/-- `DAYS[d]` under a `JSNum` index, stringified as interpolation does. -/
def dayNameOf (j : JSNum) : String :=
  match j with
  | some n => if 0 ≤ n then DAYS.getD n.toNat "undefined" else "undefined"
  | none => "undefined"

/-- The `values`/`uniqueValues` normalisation of `buildDayOfWeekPart`
(source lines 304–305): replace 7 by 0 (`v === 7`, so `NaN` is left
alone), then `[...new Set(…)].sort((a, b) => a - b)`. -/
def dowNormalized (dow : ParsedField) : List JSNum :=
  jsSortNum (keepFirst (dow.values.map (fun v => if v = some 7 then some 0 else v)))

/-- `isWeekdays` (source lines 309–310): exactly five values, each an
integer in `[1, 5]` (a `NaN` entry fails both comparisons). -/
def isWeekdaysCheck (u : List JSNum) : Bool :=
  u.length == 5 && u.all (fun d =>
    match d with
    | some x => decide (1 ≤ x) && decide (x ≤ 5)
    | none => false)

/-- `isWeekends` (source lines 311–312). -/
def isWeekendsCheck (u : List JSNum) : Bool :=
  u.length == 2 && u.contains (some 0) && u.contains (some 6)

/-- `buildDayOfWeekPart(fields)` (source lines 296–328). -/
def buildDayOfWeekPart (flds : CronFields) : Option String :=
  let dow := flds.dayOfWeek
  if dow.kind = CronFieldType.wildcard then none
  else
    let u := dowNormalized dow
    let dayNames := u.map dayNameOf
    if isWeekdaysCheck u then some "on weekdays"
    else if isWeekendsCheck u then some "on weekends"
    else
      match dayNames with
      | [nm] => some ("on " ++ nm)
      | nms =>
        if nms.length ≤ 4 then some ("on " ++ formatList nms)
        else some ("on " ++ Nat.repr nms.length ++ " days of the week")

/-- `result.charAt(0).toUpperCase() + result.slice(1)`. -/
def capitalizeFirst (s : String) : String :=
  match s.data with
  | [] => ""
  | c :: rest => mkStr (c.toUpper :: rest)

/-- A part is appended only when truthy (`if (datePart)`): `null` and the
empty string are both skipped.  (`buildDatePart` can in fact never return
`some ""`, but the model keeps the check.) -/
def optPart : Option String → List String
  | some s => if s = "" then [] else [s]
  | none => []

/-- `explain(expression, options)` (source lines 176–204); the `options`
parameter is never read by the source body and is dropped here. -/
def explain (v : JSVal) : Except String String := do
  let p ← parse v
  let parts := [buildTimePart p.fields p.isExtended]
    ++ optPart (buildDatePart p.fields)
    ++ optPart (buildDayOfWeekPart p.fields)
  pure (capitalizeFirst (joinWith ", " parts))

/-! ## validate (source lines 358–374) -/

/-- The object `validate` returns; absent keys are `none`. -/
structure ValidateResult where
  valid : Bool
  expression : JSVal
  fields : Option Nat
  isExtended : Option Bool
  error : Option String
deriving DecidableEq

/-- `Object.keys(parsed.fields).length`: the six names are distinct and
`second` is assigned exactly on a six-field parse. -/
def fieldsCount (f : CronFields) : Nat := if f.second.isSome then 6 else 5

/-- `validate(expression)` (source lines 358–374): total by construction —
the `try`/`catch` converts any `parse` throw into a `{valid: false}`
result, which is what "never throws" amounts to in this embedding. -/
def validate (v : JSVal) : ValidateResult :=
  match parse v with
  | Except.ok p => ⟨true, v, some (fieldsCount p.fields), some p.isExtended, none⟩
  | Except.error m => ⟨false, v, none, none, some m⟩

/-! ## Occurrence scanner (source lines 383–427)

Instants are `Nat` seconds of the linear civil clock (see the file
header).  The calendar getters follow the standard civil-from-days
computation for the proleptic Gregorian calendar. -/

/-- Month and day-of-month of a day number (days since 1970-01-01). -/
def civilMD (z : Nat) : Nat × Nat :=
  let days := z + 719468
  let doe := days % 146097
  let yoe := (doe - doe / 1460 + doe / 36524 - doe / 146097) / 365
  let doy := doe - (365 * yoe + yoe / 4 - yoe / 100)
  let mp := (5 * doy + 2) / 153
  let d := doy - (153 * mp + 2) / 5 + 1
  let m := if mp < 10 then mp + 3 else mp - 9
  (m, d)

/-- `getSeconds()`. -/
def getSecondsOf (t : Nat) : Nat := t % 60

/-- `getMinutes()`. -/
def getMinutesOf (t : Nat) : Nat := t / 60 % 60

/-- `getHours()`. -/
def getHoursOf (t : Nat) : Nat := t / 3600 % 24

/-- `getDay()`: weekday, 0 = Sunday (1970-01-01 was a Thursday). -/
def getDayOf (t : Nat) : Nat := (t / 86400 + 4) % 7

/-- `getDate()`: day of month. -/
def getDateOf (t : Nat) : Nat := (civilMD (t / 86400)).2

/-- `getMonth() + 1`: month 1–12, as the scanner uses it. -/
def getMonthOf (t : Nat) : Nat := (civilMD (t / 86400)).1

/-- `fields.second.values` as the scanner reads it (defined for any
`CronFields`; `parse` guarantees presence exactly on extended parses, the
only case in which the scanner reads it). -/
def secondValuesOf (flds : CronFields) : List JSNum :=
  match flds.second with
  | some sf => sf.values
  | none => []

/-- The `matches` test of one scanner iteration (source lines 405–412):
plain membership for second (extended only) / minute / hour / day-of-month
/ month, and for day-of-week membership of the raw weekday **or** of its
Sunday-as-7 alias (`current.getDay() === 0 ? 7 : current.getDay()`). -/
def matchesAt (flds : CronFields) (isExt : Bool) (t : Nat) : Bool :=
  (if isExt then (secondValuesOf flds).contains (some ((getSecondsOf t : Nat) : Int))
   else true)
  && flds.minute.values.contains (some ((getMinutesOf t : Nat) : Int))
  && flds.hour.values.contains (some ((getHoursOf t : Nat) : Int))
  && flds.dayOfMonth.values.contains (some ((getDateOf t : Nat) : Int))
  && flds.month.values.contains (some ((getMonthOf t : Nat) : Int))
  && (flds.dayOfWeek.values.contains (some ((getDayOf t : Nat) : Int))
      || flds.dayOfWeek.values.contains
          (some (if getDayOf t = 0 then (7 : Int) else ((getDayOf t : Nat) : Int))))

/-- The cursor advance per iteration: one second on an extended
expression, one minute otherwise. -/
def scanUnit (isExt : Bool) : Nat := if isExt then 1 else 60

/-- The pre-loop cursor move (source lines 391–397): extended advances one
second; standard clears seconds and advances one minute. -/
def startCursor (isExt : Bool) (t0 : Nat) : Nat :=
  if isExt then t0 + 1 else t0 - t0 % 60 + 60

/-- The scan loop (source lines 402–424), with `fuel` the remaining
iteration budget (`maxIterations - iterations`); matches are accumulated
in reverse. -/
def scanFrom (flds : CronFields) (isExt : Bool) (count : Nat) :
    Nat → Nat → List Nat → List Nat
  | 0, _, acc => acc.reverse
  | fuel + 1, cur, acc =>
    if count ≤ acc.length then acc.reverse
    else
      scanFrom flds isExt count fuel (cur + scanUnit isExt)
        (if matchesAt flds isExt cur then cur :: acc else acc)

/-- `maxIterations = 366 * 24 * 60 * 60` (source line 399) — the same
constant whichever the advance unit is. -/
def maxIterations : Nat := 366 * 24 * 60 * 60

/-- `nextOccurrences(expression, count, startFrom)` (source lines
383–427).  `startFrom` is the starting instant with sub-second component
already cleared (`setMilliseconds(0)` is the identity at this
granularity). -/
def nextOccurrences (v : JSVal) (count : Nat) (startFrom : Nat) :
    Except String (List Nat) := do
  let p ← parse v
  pure (scanFrom p.fields p.isExtended count maxIterations
    (startCursor p.isExtended startFrom) [])

/-! ## Presets (source lines 432–453) -/

/-- The `presets` table, in insertion order. -/
def presets : List (String × String) :=
  [("@yearly", "0 0 1 1 *"), ("@annually", "0 0 1 1 *"),
   ("@monthly", "0 0 1 * *"), ("@weekly", "0 0 * * 0"),
   ("@daily", "0 0 * * *"), ("@midnight", "0 0 * * *"),
   ("@hourly", "0 * * * *")]

/-- The string-keyed properties `presets[lower]` can hit beyond the
table's own keys: the object literal inherits from `Object.prototype`,
whose string-named members — all functions except the `__proto__`
accessor, which yields `Object.prototype` itself — are every one of them
truthy, so `if (presets[lower])` passes for each of these names. -/
def objectProtoKeys : List String :=
  ["constructor", "toString", "toLocaleString", "valueOf", "hasOwnProperty",
   "isPrototypeOf", "propertyIsEnumerable", "__proto__", "__defineGetter__",
   "__defineSetter__", "__lookupGetter__", "__lookupSetter__"]

/-- What `expandPreset` can return: a string (a table value or the input
echoed back), or the non-string truthy value `presets[lower]` found on
the prototype chain for the given name. -/
inductive PresetResult where
  | str (s : String)
  | inherited (name : String)
deriving DecidableEq

/-- `expandPreset(preset)`: case-insensitive property read on the preset
object.  An own key yields its canonical expression; a name inherited
from `Object.prototype` (`"constructor"`, `"toString"`, `"__proto__"`, …)
yields that truthy non-string value, which the function returns as-is;
anything else reads `undefined`, which is falsy, and the input is
returned unchanged. -/
def expandPreset (s : String) : PresetResult :=
  match presets.lookup (jsToLower s) with
  | some e => PresetResult.str e
  | none =>
    if objectProtoKeys.contains (jsToLower s) then
      PresetResult.inherited (jsToLower s)
    else PresetResult.str s

/-! ## Order structure of parsed values

`valLt a b` says the numeric entries of `a` and `b` are strictly
increasing; pairs involving a `NaN` entry are unconstrained (the
ECMAScript sort leaves their placement implementation-defined). -/

/-- Strict increase between the integer entries of two `JSNum`s. -/
def valLt (a b : JSNum) : Prop := ∀ x y, a = some x → b = some y → x < y

theorem valLt_of_lt {a b : Int} (h : a < b) : valLt (some a) (some b) := by
  intro x y hx hy
  cases hx; cases hy
  exact h

theorem stepRangeAux_mem {st : Int} (hst : 0 ≤ st) :
    ∀ (fuel : Nat) (i stop : Int), ∀ x ∈ stepRangeAux fuel i stop st, i ≤ x := by
  intro fuel
  induction fuel with
  | zero => intro i stop x hx; simp [stepRangeAux] at hx
  | succ n ih =>
    intro i stop x hx
    simp only [stepRangeAux] at hx
    split at hx
    · rcases List.mem_cons.mp hx with h | h
      · omega
      · have := ih (i + st) stop x h
        omega
    · simp at hx

theorem stepRangeAux_pairwise {st : Int} (hst : 1 ≤ st) :
    ∀ (fuel : Nat) (i stop : Int),
    List.Pairwise (· < ·) (stepRangeAux fuel i stop st) := by
  intro fuel
  induction fuel with
  | zero => intro i stop; simp [stepRangeAux]
  | succ n ih =>
    intro i stop
    simp only [stepRangeAux]
    split
    · refine List.pairwise_cons.mpr ⟨?_, ih (i + st) stop⟩
      intro x hx
      have := stepRangeAux_mem (by omega) n (i + st) stop x hx
      omega
    · exact List.Pairwise.nil

theorem stepRange_map_pairwise {a b st : Int} (hst : 1 ≤ st) :
    List.Pairwise valLt ((stepRange a b st).map some) := by
  rw [List.pairwise_map]
  exact (stepRangeAux_pairwise hst _ a b).imp valLt_of_lt

theorem keepFirstAux_mem :
    ∀ (fuel : Nat) (l : List JSNum), ∀ x ∈ keepFirstAux fuel l, x ∈ l := by
  intro fuel
  induction fuel with
  | zero => intro l x hx; simp [keepFirstAux] at hx
  | succ n ih =>
    intro l x hx
    match l with
    | [] => simp [keepFirstAux] at hx
    | a :: t =>
      simp only [keepFirstAux] at hx
      rcases List.mem_cons.mp hx with h | h
      · simp [h]
      · have := ih _ x h
        exact List.mem_cons.mpr (Or.inr (List.mem_filter.mp this).1)

theorem keepFirstAux_nodup :
    ∀ (fuel : Nat) (l : List JSNum), (keepFirstAux fuel l).Nodup := by
  intro fuel
  induction fuel with
  | zero => intro l; simp [keepFirstAux]
  | succ n ih =>
    intro l
    match l with
    | [] => simp [keepFirstAux]
    | a :: t =>
      simp only [keepFirstAux]
      refine List.nodup_cons.mpr ⟨?_, ih _⟩
      intro hmem
      have := (List.mem_filter.mp (keepFirstAux_mem n _ a hmem)).2
      simp at this

theorem keepFirst_nodup (l : List JSNum) : (keepFirst l).Nodup :=
  keepFirstAux_nodup l.length l

theorem mem_insertNum {a x : JSNum} :
    ∀ l : List JSNum, a ∈ insertNum x l ↔ a = x ∨ a ∈ l := by
  intro l
  induction l with
  | nil => simp [insertNum]
  | cons y t ih =>
    simp only [insertNum]
    split
    · simp [List.mem_cons]
    · rw [List.mem_cons, ih, List.mem_cons]
      tauto

theorem numLtB_true {x y : JSNum} (h : numLtB x y = true) :
    ∃ a b, x = some a ∧ y = some b ∧ a < b := by
  cases x with
  | none => simp [numLtB] at h
  | some a =>
    cases y with
    | none => simp [numLtB] at h
    | some b =>
      refine ⟨a, b, rfl, rfl, ?_⟩
      simpa [numLtB] using h

theorem numLtB_false_some {a b : Int} (h : numLtB (some a) (some b) = false) :
    b ≤ a := by
  simp [numLtB] at h
  omega

theorem insertNum_pairwise {x : JSNum} {l : List JSNum}
    (hl : l.Pairwise valLt) (hx : ∀ v, x = some v → some v ∉ l) :
    (insertNum x l).Pairwise valLt := by
  induction l with
  | nil => simp [insertNum, List.pairwise_cons]
  | cons y t ih =>
    have hyt := List.pairwise_cons.mp hl
    simp only [insertNum]
    by_cases hb : numLtB x y = true
    · rw [if_pos hb]
      obtain ⟨a, b, hxa, hyb, hab⟩ := numLtB_true hb
      subst hxa; subst hyb
      refine List.pairwise_cons.mpr ⟨?_, hl⟩
      intro z hz
      intro u v hu hv
      cases hu
      rcases List.mem_cons.mp hz with h | hzt
      · subst h
        cases hv
        omega
      · have hbz : b < v := hyt.1 z hzt b v rfl hv
        omega
    · rw [if_neg hb]
      refine List.pairwise_cons.mpr
        ⟨?_, ih hyt.2 (fun v hv hmem => hx v hv (List.mem_cons.mpr (Or.inr hmem)))⟩
      intro z hz
      rcases (mem_insertNum t).mp hz with h | hzt
      · subst h
        intro b a hyb hxa
        subst hyb; subst hxa
        have hba : b ≤ a := numLtB_false_some (Bool.not_eq_true _ ▸ eq_false_of_ne_true hb)
        have hne := hx a rfl
        have : b ≠ a := fun hEq => hne (by simp [hEq, List.mem_cons])
        omega
      · exact hyt.1 z hzt

theorem mem_sortVals {a : JSNum} : ∀ l : List JSNum, a ∈ sortVals l ↔ a ∈ l := by
  intro l
  induction l with
  | nil => simp [sortVals]
  | cons x t ih =>
    simp only [sortVals]
    rw [mem_insertNum, ih, List.mem_cons]

theorem mem_jsSortNum {a : JSNum} (l : List JSNum) : a ∈ jsSortNum l ↔ a ∈ l := by
  unfold jsSortNum
  split
  · exact mem_sortVals l
  · exact Iff.rfl

theorem sortVals_pairwise : ∀ l : List JSNum, l.Nodup → (sortVals l).Pairwise valLt := by
  intro l
  induction l with
  | nil => intro _; simp [sortVals]
  | cons x t ih =>
    intro hnd
    have hx : x ∉ t := (List.nodup_cons.mp hnd).1
    simp only [sortVals]
    refine insertNum_pairwise (ih (List.nodup_cons.mp hnd).2) ?_
    intro v hv hmem
    subst hv
    exact hx ((mem_sortVals t).mp hmem)

/-- The sorted-output guarantee exists exactly in the spec-determined
case: when the (deduplicated) list being sorted turns out `NaN`-free —
equivalently, when the sort's output is `NaN`-free — the result is
strictly ascending.  Nothing is asserted about lists with `NaN`. -/
theorem jsSortNum_pairwise_of_some {l : List JSNum}
    (hs : ∀ x ∈ jsSortNum l, x.isSome = true) (hnd : l.Nodup) :
    (jsSortNum l).Pairwise valLt := by
  unfold jsSortNum at hs ⊢
  by_cases hall : l.all (fun x => x.isSome) = true
  · rw [if_pos hall]
    exact sortVals_pairwise l hnd
  · rw [if_neg hall] at hs
    exact absurd (List.all_eq_true.mpr hs) hall

/-! ## Claims C3, C4, C5 — the field parser's value invariants -/

/-- The amended C3 invariant, over every branch of `parseField`: the
ordering guarantee holds whenever the resulting values are `NaN`-free
(every branch except the list branch produces such values by
construction; for the list branch `NaN`-freeness of the output puts the
sort in its ECMAScript-determined case). -/
theorem parseField_values_pairwise (field fieldName : String) (r : ParsedField)
    (h : parseField field fieldName = Except.ok r)
    (hn : ∀ x ∈ r.values, x.isSome = true) :
    r.values.Pairwise valLt := by
  unfold parseField at h
  cases hfr : fieldRanges fieldName with
  | none => rw [hfr] at h; exact absurd h (by simp)
  | some p =>
    obtain ⟨mn, mx⟩ := p
    rw [hfr] at h
    simp only at h
    split at h
    · -- wildcard
      cases h
      exact stepRange_map_pairwise (by omega)
    · split at h
      · -- step branch
        split at h
        · exact absurd h (by simp)
        · rename_i st hst
          split at h
          · exact absurd h (by simp)
          · cases h
            rename_i hlt
            simp only
            split
            · exact stepRange_map_pairwise (by omega)
            · simp
      · split at h
        · -- list branch
          cases h
          exact jsSortNum_pairwise_of_some hn (keepFirst_nodup _)
        · split at h
          · -- range branch
            cases h
            simp only
            split
            · exact stepRange_map_pairwise (by omega)
            · simp
          · -- single value
            split at h
            · exact absurd h (by simp)
            · cases h
              simp [List.pairwise_cons]

/-- Claim C3, as stated, is false: `parseField` performs no bounds check,
so a successfully parsed minute field may contain the value 99, far above
`FieldSpec.max = 59`. -/
theorem claim3_counterexample :
    ∃ r, parseField "99" "minute" = Except.ok r ∧
      r.values = [some 99] ∧ ¬((99 : Int) ≤ 59) :=
  ⟨⟨"99", CronFieldType.single, [some 99]⟩, rfl, rfl, by decide⟩

/-- Claim C3 (amended): for every token and field name on which
`parseField` succeeds **and whose resulting values contain no `NaN`
entry**, the values list is strictly ascending (hence deduplicated); but
`values` need not be a subset of `[FieldSpec.min, FieldSpec.max]` — no
bounds clamping is performed.  A malformed list item contributes a `NaN`
entry, and for such a list ECMAScript leaves the sort order
implementation-defined, so no ordering is guaranteed. -/
theorem claim3_values_ascending (field fieldName : String) (r : ParsedField)
    (h : parseField field fieldName = Except.ok r)
    (hn : ∀ x ∈ r.values, x.isSome = true) :
    r.values.Pairwise valLt :=
  parseField_values_pairwise field fieldName r h hn

/-- Witness for `claim3_values_ascending` at the concrete token `1-3`. -/
theorem claim3_values_ascending_witness :
    List.Pairwise valLt [some 1, some 2, some 3] :=
  claim3_values_ascending "1-3" "minute"
    ⟨"1-3", CronFieldType.range, [some 1, some 2, some 3]⟩ rfl (by decide)

/-- Claim C4, as stated, is false: the range `5-3` (with `a > b`) expands
to the empty set, and `parseField` returns it as a successful parse
instead of raising an error. -/
theorem claim4_counterexample :
    ∃ r, parseField "5-3" "minute" = Except.ok r ∧ r.values = [] :=
  ⟨⟨"5-3", CronFieldType.range, []⟩, rfl, rfl⟩

/-- Claim C4 (amended): `parseField` does not enforce non-emptiness: an
expansion that produces no values — such as a range `a-b` with `a > b` —
is returned as a successful parse with `values = []`, not as an error. -/
theorem claim4_empty_range_parses :
    parseField "5-3" "minute" = Except.ok ⟨"5-3", CronFieldType.range, []⟩ :=
  rfl

/-- Claim C5, as stated, is false: a bad integer inside a range endpoint
(`1-x`) does not make `parseField` fail — it yields a successful parse
with an empty expansion. -/
theorem claim5_counterexample :
    ∃ r, parseField "1-x" "minute" = Except.ok r ∧ r.values = [] :=
  ⟨⟨"1-x", CronFieldType.range, []⟩, rfl, rfl⟩

/-- Claim C5 (amended), in three parts over any token and field name:
1. every `parseField` error is one of: the unknown-field lookup failure
   (the modelled `TypeError`), the step error — the token contains `/`
   and its step part parses to `NaN` or an integer `< 1` — or the
   single-value error — the token reaches the last branch (not `*`, no
   `/`, `,` or `-`) and is not an integer; the latter two messages name
   the offending field and raw token;
2. a token reaching the list branch (contains `,`, no `/`) never errors,
   however malformed its items — they become `NaN` entries;
3. a token reaching the range branch (contains `-`, no `/` or `,`) never
   errors, however malformed its endpoints — the expansion is empty. -/
theorem claim5_failure_modes (field fieldName : String) :
    (∀ m, parseField field fieldName = Except.error m →
      fieldRanges fieldName = none
      ∨ (strContainsChar (applyAbbrevs fieldName (jsToLower field)) '/' = true
         ∧ (jsParseInt ((splitChar (applyAbbrevs fieldName (jsToLower field)) '/').getD 1 "") = none
            ∨ ∃ st, jsParseInt ((splitChar (applyAbbrevs fieldName (jsToLower field)) '/').getD 1 "")
                  = some st ∧ st < 1)
         ∧ m = "Invalid step value in field \x27" ++ fieldName ++ "\x27: " ++ field)
      ∨ (applyAbbrevs fieldName (jsToLower field) ≠ "*"
         ∧ strContainsChar (applyAbbrevs fieldName (jsToLower field)) '/' = false
         ∧ strContainsChar (applyAbbrevs fieldName (jsToLower field)) ',' = false
         ∧ strContainsChar (applyAbbrevs fieldName (jsToLower field)) '-' = false
         ∧ jsParseInt (applyAbbrevs fieldName (jsToLower field)) = none
         ∧ m = "Invalid value in field \x27" ++ fieldName ++ "\x27: " ++ field))
    ∧ (∀ mn mx : Int, fieldRanges fieldName = some (mn, mx) →
        strContainsChar (applyAbbrevs fieldName (jsToLower field)) ',' = true →
        strContainsChar (applyAbbrevs fieldName (jsToLower field)) '/' = false →
        ∃ vals, parseField field fieldName = Except.ok ⟨field, CronFieldType.list, vals⟩)
    ∧ (∀ mn mx : Int, fieldRanges fieldName = some (mn, mx) →
        strContainsChar (applyAbbrevs fieldName (jsToLower field)) '-' = true →
        strContainsChar (applyAbbrevs fieldName (jsToLower field)) '/' = false →
        strContainsChar (applyAbbrevs fieldName (jsToLower field)) ',' = false →
        ∃ vals, parseField field fieldName = Except.ok ⟨field, CronFieldType.range, vals⟩) := by
  refine ⟨?_, ?_, ?_⟩
  · intro m h
    unfold parseField at h
    split at h
    · rename_i heq
      exact Or.inl heq
    · rename_i mn mx heq
      simp only at h
      split at h
      · exact absurd h (by simp)
      · rename_i hstar
        split at h
        · rename_i hslash
          split at h
          · rename_i hstep
            injection h with hm
            exact Or.inr (Or.inl ⟨hslash, Or.inl hstep, hm.symm⟩)
          · rename_i st hstep
            split at h
            · rename_i hlt
              injection h with hm
              exact Or.inr (Or.inl ⟨hslash, Or.inr ⟨st, hstep, hlt⟩, hm.symm⟩)
            · exact absurd h (by simp)
        · rename_i hslash
          split at h
          · exact absurd h (by simp)
          · rename_i hcomma
            split at h
            · exact absurd h (by simp)
            · rename_i hdash
              split at h
              · rename_i hval
                injection h with hm
                refine Or.inr (Or.inr ⟨hstar, ?_, ?_, ?_, hval, hm.symm⟩)
                · exact Bool.not_eq_true _ ▸ eq_false_of_ne_true hslash
                · exact Bool.not_eq_true _ ▸ eq_false_of_ne_true hcomma
                · exact Bool.not_eq_true _ ▸ eq_false_of_ne_true hdash
              · exact absurd h (by simp)
  · intro mn mx heq hcomma hslash
    have hstar : applyAbbrevs fieldName (jsToLower field) ≠ "*" := by
      intro he
      rw [he] at hcomma
      exact absurd hcomma (by decide)
    unfold parseField
    split
    · rename_i heq0
      rw [heq] at heq0
      cases heq0
    · rename_i mn' mx' heq0
      rw [if_neg hstar, if_neg (by simp [hslash]), if_pos (by simp [hcomma])]
      exact ⟨_, rfl⟩
  · intro mn mx heq hdash hslash hcomma
    have hstar : applyAbbrevs fieldName (jsToLower field) ≠ "*" := by
      intro he
      rw [he] at hdash
      exact absurd hdash (by decide)
    unfold parseField
    split
    · rename_i heq0
      rw [heq] at heq0
      cases heq0
    · rename_i mn' mx' heq0
      rw [if_neg hstar, if_neg (by simp [hslash]), if_neg (by simp [hcomma]),
        if_pos (by simp [hdash])]
      exact ⟨_, rfl⟩

/-- Witness for `claim5_failure_modes`: the list token `1,x`, carrying a
bad integer in its second item, parses successfully. -/
theorem claim5_failure_modes_witness :
    ∃ vals, parseField "1,x" "minute" = Except.ok ⟨"1,x", CronFieldType.list, vals⟩ :=
  (claim5_failure_modes "1,x" "minute").2.1 0 59 rfl rfl rfl

/-! ## Claim C7 — validate never throws and wraps parse -/

/-- Claim C7: for every input — non-strings and the empty string included
— `validate` is total: on a successful `parse` it returns
`{valid: true, expression, fields: key count, isExtended}`, and on any
`parse` failure it returns `{valid: false, expression, error: message}`. -/
theorem claim7_validate_total (v : JSVal) :
    (∃ p, parse v = Except.ok p ∧
      validate v = ⟨true, v, some (fieldsCount p.fields), some p.isExtended, none⟩) ∨
    (∃ m, parse v = Except.error m ∧
      validate v = ⟨false, v, none, none, some m⟩) := by
  cases hp : parse v with
  | ok p => exact Or.inl ⟨p, rfl, by simp [validate, hp]⟩
  | error m => exact Or.inr ⟨m, rfl, by simp [validate, hp]⟩

/-! ## Claim C9 — preset expansion -/

/-- Claim C9, as stated, is false: `"constructor"` is not a key of the
fixed preset table, yet `expandPreset` does not return it unchanged —
`presets['constructor']` walks the prototype chain, finds the truthy
inherited `Object.prototype.constructor`, and the function returns that
non-string value. -/
theorem claim9_counterexample :
    presets.lookup (jsToLower "constructor") = none
    ∧ expandPreset "constructor" ≠ PresetResult.str "constructor"
    ∧ expandPreset "constructor" = PresetResult.inherited "constructor" :=
  ⟨rfl, by decide, rfl⟩

/-- Claim C9 (amended): `expandPreset` lowercases its input and reads
that property of the preset object: a key of the fixed table yields the
mapped canonical expression; a property inherited from
`Object.prototype` (`constructor`, `toString`, `__proto__`, …) is truthy
and is returned as that non-string value; any other token reads the
falsy `undefined` and is returned unchanged.  In particular `@daily` (in
any case) expands to `0 0 * * *` and the non-preset `0 0 * * *` is
returned unchanged. -/
theorem claim9_expand_preset :
    (∀ s : String,
      (∃ e, presets.lookup (jsToLower s) = some e
        ∧ expandPreset s = PresetResult.str e)
      ∨ (presets.lookup (jsToLower s) = none
          ∧ objectProtoKeys.contains (jsToLower s) = true
          ∧ expandPreset s = PresetResult.inherited (jsToLower s))
      ∨ (presets.lookup (jsToLower s) = none
          ∧ objectProtoKeys.contains (jsToLower s) = false
          ∧ expandPreset s = PresetResult.str s))
    ∧ expandPreset "@daily" = PresetResult.str "0 0 * * *"
    ∧ expandPreset "@DaiLy" = PresetResult.str "0 0 * * *"
    ∧ expandPreset "0 0 * * *" = PresetResult.str "0 0 * * *" := by
  refine ⟨?_, rfl, rfl, rfl⟩
  intro s
  cases hl : presets.lookup (jsToLower s) with
  | some e => exact Or.inl ⟨e, rfl, by simp [expandPreset, hl]⟩
  | none =>
    cases hp : objectProtoKeys.contains (jsToLower s) with
    | true =>
      have hm : jsToLower s ∈ objectProtoKeys := by simpa using hp
      exact Or.inr (Or.inl ⟨rfl, rfl, by simp [expandPreset, hl, hm]⟩)
    | false =>
      have hm : jsToLower s ∉ objectProtoKeys := by simpa using hp
      exact Or.inr (Or.inr ⟨rfl, rfl, by simp [expandPreset, hl, hm]⟩)

/-! ## Claim C8 infrastructure — characterising the weekday/weekend flags -/

theorem weekdays_eq (u : List JSNum) (hp : u.Pairwise valLt)
    (hw : isWeekdaysCheck u = true) :
    u = [some 1, some 2, some 3, some 4, some 5] := by
  unfold isWeekdaysCheck at hw
  rw [Bool.and_eq_true] at hw
  have hlen : u.length = 5 := by
    have := hw.1
    simpa using this
  have hall := List.all_eq_true.mp hw.2
  match u, hlen with
  | [a, b, c, d, e], _ =>
    have bnd : ∀ x ∈ [a, b, c, d, e], ∃ v : Int, x = some v ∧ 1 ≤ v ∧ v ≤ 5 := by
      intro x hx
      have hx' := hall x hx
      cases x with
      | none => simp at hx'
      | some v =>
        have h12 : 1 ≤ v ∧ v ≤ 5 := by simpa using hx'
        exact ⟨v, rfl, h12.1, h12.2⟩
    obtain ⟨va, ha, ha1, ha5⟩ := bnd a (by simp)
    obtain ⟨vb, hb, hb1, hb5⟩ := bnd b (by simp)
    obtain ⟨vc, hc, hc1, hc5⟩ := bnd c (by simp)
    obtain ⟨vd, hd, hd1, hd5⟩ := bnd d (by simp)
    obtain ⟨ve, he, he1, he5⟩ := bnd e (by simp)
    subst ha hb hc hd he
    simp only [List.pairwise_cons, List.mem_cons, List.mem_singleton] at hp
    have hab : va < vb := hp.1 _ (by tauto) va vb rfl rfl
    have hbc : vb < vc := hp.2.1 _ (by tauto) vb vc rfl rfl
    have hcd : vc < vd := hp.2.2.1 _ (by tauto) vc vd rfl rfl
    have hde : vd < ve := hp.2.2.2.1 _ (by tauto) vd ve rfl rfl
    have : va = 1 ∧ vb = 2 ∧ vc = 3 ∧ vd = 4 ∧ ve = 5 := by omega
    obtain ⟨r1, r2, r3, r4, r5⟩ := this
    subst r1 r2 r3 r4 r5
    rfl

theorem weekends_eq (u : List JSNum) (hp : u.Pairwise valLt)
    (hw : isWeekendsCheck u = true) :
    u = [some 0, some 6] := by
  unfold isWeekendsCheck at hw
  rw [Bool.and_eq_true, Bool.and_eq_true] at hw
  have hlen : u.length = 2 := by
    have := hw.1.1
    simpa using this
  have h0 : (some 0 : JSNum) ∈ u := by
    have := hw.1.2
    simpa [List.contains] using List.elem_iff.mp this
  have h6 : (some 6 : JSNum) ∈ u := by
    have := hw.2
    simpa [List.contains] using List.elem_iff.mp this
  match u, hlen with
  | [a, b], _ =>
    simp only [List.pairwise_cons, List.mem_cons, List.mem_singleton,
      List.not_mem_nil] at hp
    simp only [List.mem_cons, List.mem_singleton, List.not_mem_nil, or_false] at h0 h6
    rcases h0 with h0 | h0 <;> rcases h6 with h6 | h6
    · rw [← h0] at h6; cases h6
    · rw [← h0, ← h6]
    · have := hp.1 b (Or.inl rfl) 6 0 h6.symm h0.symm
      omega
    · rw [← h0] at h6; cases h6

/-- A true weekday check forces every entry to be an integer (`NaN`
fails both comparisons of the `every` predicate). -/
theorem weekdays_all_some {u : List JSNum} (h : isWeekdaysCheck u = true) :
    ∀ x ∈ u, x.isSome = true := by
  intro x hx
  unfold isWeekdaysCheck at h
  rw [Bool.and_eq_true] at h
  have hx' := List.all_eq_true.mp h.2 x hx
  cases x with
  | none => simp at hx'
  | some v => rfl

/-- A true weekend check forces every entry to be an integer: the two
entries of the length-2 list are the members 0 and 6. -/
theorem weekends_all_some {u : List JSNum} (h : isWeekendsCheck u = true) :
    ∀ x ∈ u, x.isSome = true := by
  unfold isWeekendsCheck at h
  rw [Bool.and_eq_true, Bool.and_eq_true] at h
  have hlen : u.length = 2 := by simpa using h.1.1
  have h0 : (some 0 : JSNum) ∈ u := by
    have := h.1.2
    simpa [List.contains] using List.elem_iff.mp this
  have h6 : (some 6 : JSNum) ∈ u := by
    have := h.2
    simpa [List.contains] using List.elem_iff.mp this
  match u, hlen with
  | [a, b], _ =>
    intro x hx
    simp only [List.mem_cons, List.not_mem_nil, or_false] at h0 h6 hx
    rcases h0 with h0 | h0 <;> rcases h6 with h6 | h6
    · rw [← h0] at h6; cases h6
    · rcases hx with rfl | rfl
      · rw [← h0]; rfl
      · rw [← h6]; rfl
    · rcases hx with rfl | rfl
      · rw [← h6]; rfl
      · rw [← h0]; rfl
    · rw [← h0] at h6; cases h6

/-- The strings `dayNameOf` can produce. -/
def daySet : List String :=
  ["Sunday", "Monday", "Tuesday", "Wednesday", "Thursday", "Friday",
   "Saturday", "undefined"]

theorem dayNameOf_mem (j : JSNum) : dayNameOf j ∈ daySet := by
  cases j with
  | none => simp [dayNameOf, daySet]
  | some n =>
    show (if 0 ≤ n then DAYS.getD n.toNat "undefined" else "undefined") ∈ daySet
    by_cases hn : 0 ≤ n
    · rw [if_pos hn]
      by_cases hk : n.toNat < 7
      · have h7 : n.toNat = 0 ∨ n.toNat = 1 ∨ n.toNat = 2 ∨ n.toNat = 3
            ∨ n.toNat = 4 ∨ n.toNat = 5 ∨ n.toNat = 6 := by omega
        rcases h7 with h | h | h | h | h | h | h <;> rw [h] <;> simp [DAYS, daySet]
      · rw [List.getD_eq_default]
        · simp [daySet]
        · show DAYS.length ≤ n.toNat
          simp only [DAYS, List.length_cons, List.length_nil]
          omega
    · rw [if_neg hn]
      simp [daySet]

theorem daySet_long {x : String} (h : x ∈ daySet) : 6 ≤ x.length := by
  fin_cases h <;> decide

theorem daySet_on_ne {x : String} (h : x ∈ daySet) :
    "on " ++ x ≠ "on weekdays" ∧ "on " ++ x ≠ "on weekends" := by
  fin_cases h <;> exact ⟨by decide, by decide⟩

theorem joinWith_len_ge_head (sep a : String) (rest : List String) :
    a.length ≤ (joinWith sep (a :: rest)).length := by
  cases rest with
  | nil => simp [joinWith]
  | cons b t =>
    simp [joinWith, String.length_append]
    omega

theorem getLastD_mem (l : List String) (d : String) (h : l ≠ []) :
    l.getLastD d ∈ l := by
  induction l with
  | nil => exact absurd rfl h
  | cons a t ih =>
    cases t with
    | nil => simp [List.getLastD]
    | cons b t' =>
      rw [List.getLastD_cons]
      exact List.mem_cons.mpr (Or.inr (ih (by simp)))

theorem formatList_len {names : List String}
    (h : ∀ x ∈ names, x ∈ daySet) (h2 : 2 ≤ names.length) :
    17 ≤ (formatList names).length := by
  match names, h2 with
  | [a, b], _ =>
    have la := daySet_long (h a (by simp))
    have lb := daySet_long (h b (by simp))
    simp only [formatList, String.length_append]
    have : (" and ").length = 5 := rfl
    omega
  | a :: b :: c :: t, _ =>
    show 17 ≤ (joinWith ", " (a :: b :: c :: t).dropLast ++ ", and "
      ++ (a :: b :: c :: t).getLastD "").length
    have hlast : (a :: b :: c :: t).getLastD "" ∈ daySet :=
      h _ (getLastD_mem _ _ (by simp))
    have l1 : 6 ≤ ((a :: b :: c :: t).getLastD "").length := daySet_long hlast
    have hdl : (a :: b :: c :: t).dropLast = a :: (b :: c :: t).dropLast := by
      simp [List.dropLast_cons₂]
    have l2 : a.length ≤ (joinWith ", " (a :: b :: c :: t).dropLast).length := by
      rw [hdl]; exact joinWith_len_ge_head _ _ _
    have la : 6 ≤ a.length := daySet_long (h a (by simp))
    simp only [String.length_append]
    have : (", and ").length = 6 := rfl
    omega

set_option maxHeartbeats 2000000 in
/-- Claim C8: for a non-wildcard day-of-week field, the generated clause
is `"on weekdays"` exactly when the normalised, deduplicated value set is
`{1,2,3,4,5}` and `"on weekends"` exactly when it is `{0,6}`; and in
particular `explain "0 9 * * 1-5"` contains a weekday phrase together with
the time `09:00`, while `explain "0 0 * * 0,6"` mentions `weekend`. -/
theorem claim8_weekday_weekend (flds : CronFields) (s : String)
    (hw : ¬ flds.dayOfWeek.kind = CronFieldType.wildcard)
    (hs : buildDayOfWeekPart flds = some s) :
    ((s = "on weekdays" ↔
        dowNormalized flds.dayOfWeek = [some 1, some 2, some 3, some 4, some 5])
     ∧ (s = "on weekends" ↔ dowNormalized flds.dayOfWeek = [some 0, some 6]))
    ∧ (∃ e, explain (JSVal.str "0 9 * * 1-5") = Except.ok e
        ∧ strContainsSub e "09:00" = true ∧ strContainsSub e "weekday" = true)
    ∧ (∃ e, explain (JSVal.str "0 0 * * 0,6") = Except.ok e
        ∧ strContainsSub e "weekend" = true) := by
  refine ⟨?_, ⟨"At 09:00, on weekdays", rfl, rfl, rfl⟩,
    ⟨"At 00:00, on weekends", rfl, rfl⟩⟩
  simp only [buildDayOfWeekPart] at hs
  rw [if_neg hw] at hs
  by_cases h1 : isWeekdaysCheck (dowNormalized flds.dayOfWeek) = true
  · rw [if_pos h1] at hs
    injection hs with hs'
    subst hs'
    have hpw : (dowNormalized flds.dayOfWeek).Pairwise valLt :=
      jsSortNum_pairwise_of_some (weekdays_all_some h1) (keepFirst_nodup _)
    have hueq := weekdays_eq _ hpw h1
    refine ⟨⟨fun _ => hueq, fun _ => rfl⟩, ?_, ?_⟩
    · intro h; exact absurd h (by decide)
    · intro h; rw [hueq] at h; exact absurd h (by decide)
  · rw [if_neg h1] at hs
    have hu5 : dowNormalized flds.dayOfWeek ≠ [some 1, some 2, some 3, some 4, some 5] :=
      fun he => h1 (by rw [he]; rfl)
    by_cases h2 : isWeekendsCheck (dowNormalized flds.dayOfWeek) = true
    · rw [if_pos h2] at hs
      injection hs with hs'
      subst hs'
      have hpw : (dowNormalized flds.dayOfWeek).Pairwise valLt :=
        jsSortNum_pairwise_of_some (weekends_all_some h2) (keepFirst_nodup _)
      have hueq := weekends_eq _ hpw h2
      refine ⟨⟨?_, ?_⟩, ⟨fun _ => hueq, fun _ => rfl⟩⟩
      · intro h; exact absurd h (by decide)
      · intro h; rw [hueq] at h; exact absurd h (by decide)
    · rw [if_neg h2] at hs
      have hu2 : dowNormalized flds.dayOfWeek ≠ [some 0, some 6] :=
        fun he => h2 (by rw [he]; rfl)
      -- the remaining branches never produce the two special strings
      have hmem : ∀ x ∈ (dowNormalized flds.dayOfWeek).map dayNameOf, x ∈ daySet := by
        intro x hx
        obtain ⟨j, _, hje⟩ := List.mem_map.mp hx
        rw [← hje]; exact dayNameOf_mem j
      have hsne : s ≠ "on weekdays" ∧ s ≠ "on weekends" := by
        cases hm : (dowNormalized flds.dayOfWeek).map dayNameOf with
        | nil =>
          rw [hm] at hs
          simp only at hs
          rw [if_pos (by simp)] at hs
          injection hs with hs'
          exact ⟨fun h => by rw [← hs'] at h; exact absurd h (by decide),
                 fun h => by rw [← hs'] at h; exact absurd h (by decide)⟩
        | cons nm rest =>
          cases rest with
          | nil =>
            rw [hm] at hs
            simp only at hs
            injection hs with hs'
            have hnm : nm ∈ daySet := hmem nm (by rw [hm]; simp)
            have hne := daySet_on_ne hnm
            exact ⟨fun h => by rw [← hs'] at h; exact absurd h hne.1,
                   fun h => by rw [← hs'] at h; exact absurd h hne.2⟩
          | cons nm2 rest2 =>
            rw [hm] at hs
            simp only at hs
            have hmem' : ∀ x ∈ nm :: nm2 :: rest2, x ∈ daySet := by
              rw [← hm]; exact hmem
            by_cases hlen : (nm :: nm2 :: rest2).length ≤ 4
            · rw [if_pos hlen] at hs
              injection hs with hs'
              have hfl : 17 ≤ (formatList (nm :: nm2 :: rest2)).length :=
                formatList_len hmem' (by simp)
              constructor
              · intro h
                rw [← hs'] at h
                have hlen2 := congrArg String.length h
                rw [String.length_append] at hlen2
                have e1 : ("on ").length = 3 := rfl
                have e2 : ("on weekdays").length = 11 := rfl
                omega
              · intro h
                rw [← hs'] at h
                have hlen2 := congrArg String.length h
                rw [String.length_append] at hlen2
                have e1 : ("on ").length = 3 := rfl
                have e2 : ("on weekends").length = 11 := rfl
                omega
            · rw [if_neg hlen] at hs
              injection hs with hs'
              constructor
              · intro h
                rw [← hs'] at h
                have hlen2 := congrArg String.length h
                rw [String.length_append, String.length_append] at hlen2
                have e1 : ("on ").length = 3 := rfl
                have e2 : ("on weekdays").length = 11 := rfl
                have e3 : (" days of the week").length = 17 := rfl
                omega
              · intro h
                rw [← hs'] at h
                have hlen2 := congrArg String.length h
                rw [String.length_append, String.length_append] at hlen2
                have e1 : ("on ").length = 3 := rfl
                have e2 : ("on weekends").length = 11 := rfl
                have e3 : (" days of the week").length = 17 := rfl
                omega
      exact ⟨⟨fun h => absurd h hsne.1, fun h => absurd h hu5⟩,
             ⟨fun h => absurd h hsne.2, fun h => absurd h hu2⟩⟩

/-- The concrete field set used to witness `claim8_weekday_weekend`. -/
def sampleFields8 : CronFields :=
  ⟨none, ⟨"0", CronFieldType.single, [some 0]⟩,
   ⟨"9", CronFieldType.single, [some 9]⟩,
   ⟨"1", CronFieldType.single, [some 1]⟩,
   ⟨"1", CronFieldType.single, [some 1]⟩,
   ⟨"1-5", CronFieldType.range, [some 1, some 2, some 3, some 4, some 5]⟩⟩

set_option maxHeartbeats 2000000 in
/-- Witness for `claim8_weekday_weekend` at a concrete weekday field. -/
theorem claim8_weekday_weekend_witness :
    (("on weekdays" = "on weekdays" ↔
        dowNormalized sampleFields8.dayOfWeek = [some 1, some 2, some 3, some 4, some 5])
     ∧ ("on weekdays" = "on weekends" ↔
        dowNormalized sampleFields8.dayOfWeek = [some 0, some 6]))
    ∧ (∃ e, explain (JSVal.str "0 9 * * 1-5") = Except.ok e
        ∧ strContainsSub e "09:00" = true ∧ strContainsSub e "weekday" = true)
    ∧ (∃ e, explain (JSVal.str "0 0 * * 0,6") = Except.ok e
        ∧ strContainsSub e "weekend" = true) :=
  claim8_weekday_weekend sampleFields8 "on weekdays" (by decide) rfl

/-! ## Claim C6 — the Sunday alias in the scanner's membership test -/

/-- Claim C6: at a cursor instant whose calendar day is a Sunday
(`getDay() = 0`), the scanner's test accepts the day-of-week field exactly
when its values contain 0 or contain 7, and every other field is tested by
plain membership of the cursor's component. -/
theorem claim6_sunday_alias (v : JSVal) (p : ParsedCron) (t : Nat)
    (hp : parse v = Except.ok p) (ht : getDayOf t = 0) :
    matchesAt p.fields p.isExtended t = true ↔
      ((p.isExtended = true →
        (secondValuesOf p.fields).contains (some ((getSecondsOf t : Nat) : Int)) = true)
       ∧ p.fields.minute.values.contains (some ((getMinutesOf t : Nat) : Int)) = true
       ∧ p.fields.hour.values.contains (some ((getHoursOf t : Nat) : Int)) = true
       ∧ p.fields.dayOfMonth.values.contains (some ((getDateOf t : Nat) : Int)) = true
       ∧ p.fields.month.values.contains (some ((getMonthOf t : Nat) : Int)) = true
       ∧ (p.fields.dayOfWeek.values.contains (some (0 : Int)) = true
          ∨ p.fields.dayOfWeek.values.contains (some (7 : Int)) = true)) := by
  unfold matchesAt
  rw [ht]
  cases hext : p.isExtended <;>
    simp [hext, Bool.and_eq_true, Bool.or_eq_true] <;> tauto

/-- Witness for `claim6_sunday_alias`: `0 0 * * 7` at instant 259200
(1970-01-04 00:00:00, a Sunday). -/
theorem claim6_sunday_alias_witness :
    ∃ p, parse (JSVal.str "0 0 * * 7") = Except.ok p ∧
      (matchesAt p.fields p.isExtended 259200 = true ↔
        ((p.isExtended = true →
          (secondValuesOf p.fields).contains (some ((getSecondsOf 259200 : Nat) : Int)) = true)
         ∧ p.fields.minute.values.contains (some ((getMinutesOf 259200 : Nat) : Int)) = true
         ∧ p.fields.hour.values.contains (some ((getHoursOf 259200 : Nat) : Int)) = true
         ∧ p.fields.dayOfMonth.values.contains (some ((getDateOf 259200 : Nat) : Int)) = true
         ∧ p.fields.month.values.contains (some ((getMonthOf 259200 : Nat) : Int)) = true
         ∧ (p.fields.dayOfWeek.values.contains (some (0 : Int)) = true
            ∨ p.fields.dayOfWeek.values.contains (some (7 : Int)) = true))) := by
  refine ⟨_, rfl, claim6_sunday_alias (JSVal.str "0 0 * * 7") _ 259200 rfl rfl⟩

/-! ## Claim C1 — the result sequence is fresh, increasing, duplicate-free -/

theorem scanUnit_pos (isExt : Bool) : 1 ≤ scanUnit isExt := by
  cases isExt <;> simp [scanUnit]

/-- Loop invariant: with an accumulator of matches below the cursor and
reverse-sorted, the scan produces a strictly sorted list whose new
elements all lie at or above the cursor. -/
theorem scanFrom_sorted_mem (flds : CronFields) (isExt : Bool) (count : Nat) :
    ∀ (fuel cur : Nat) (acc : List Nat),
      (∀ x ∈ acc, x < cur) → List.Pairwise (fun a b => b < a) acc →
      List.Pairwise (· < ·) (scanFrom flds isExt count fuel cur acc)
      ∧ ∀ x ∈ scanFrom flds isExt count fuel cur acc, x ∈ acc ∨ cur ≤ x := by
  intro fuel
  induction fuel with
  | zero =>
    intro cur acc h1 h2
    refine ⟨by simpa [scanFrom, List.pairwise_reverse] using h2, ?_⟩
    intro x hx
    exact Or.inl (by simpa [scanFrom] using hx)
  | succ n ih =>
    intro cur acc h1 h2
    simp only [scanFrom]
    split
    · refine ⟨by simpa [List.pairwise_reverse] using h2, ?_⟩
      intro x hx
      exact Or.inl (by simpa using hx)
    · have hu := scanUnit_pos isExt
      by_cases hm : matchesAt flds isExt cur = true
      · rw [if_pos hm]
        have h1' : ∀ x ∈ cur :: acc, x < cur + scanUnit isExt := by
          intro x hx
          rcases List.mem_cons.mp hx with rfl | hxa
          · omega
          · have := h1 x hxa; omega
        have h2' : List.Pairwise (fun a b => b < a) (cur :: acc) :=
          List.pairwise_cons.mpr ⟨h1, h2⟩
        obtain ⟨hs, hmem⟩ := ih (cur + scanUnit isExt) (cur :: acc) h1' h2'
        refine ⟨hs, ?_⟩
        intro x hx
        rcases hmem x hx with hxa | hge
        · rcases List.mem_cons.mp hxa with rfl | hxa'
          · exact Or.inr le_rfl
          · exact Or.inl hxa'
        · exact Or.inr (by omega)
      · rw [if_neg hm]
        have h1' : ∀ x ∈ acc, x < cur + scanUnit isExt := by
          intro x hx; have := h1 x hx; omega
        obtain ⟨hs, hmem⟩ := ih (cur + scanUnit isExt) acc h1' h2
        refine ⟨hs, ?_⟩
        intro x hx
        rcases hmem x hx with hxa | hge
        · exact Or.inl hxa
        · exact Or.inr (by omega)

theorem startCursor_gt (isExt : Bool) (t0 : Nat) : t0 < startCursor isExt t0 := by
  cases isExt <;> simp [startCursor] <;> omega

/-- Claim C1: on every successful call, the occurrence list is strictly
increasing, duplicate-free, and never contains the (sub-second-cleared)
starting instant — the cursor is advanced one unit before the first test,
so this holds even when the start matches every field. -/
theorem claim1_next_strictly_increasing (v : JSVal) (count t0 : Nat) (l : List Nat)
    (h : nextOccurrences v count t0 = Except.ok l) :
    List.Pairwise (· < ·) l ∧ l.Nodup ∧ t0 ∉ l := by
  unfold nextOccurrences at h
  cases hp : parse v with
  | error m =>
    rw [hp] at h
    exact absurd h (by simp [Bind.bind, Except.bind])
  | ok p =>
    rw [hp] at h
    simp only [Bind.bind, Except.bind, pure, Except.pure, Except.ok.injEq] at h
    subst h
    obtain ⟨hs, hmem⟩ := scanFrom_sorted_mem p.fields p.isExtended count
      maxIterations (startCursor p.isExtended t0) [] (by simp) (by simp)
    refine ⟨hs, hs.imp (fun hab => Nat.ne_of_lt hab), ?_⟩
    intro hmem0
    rcases hmem t0 hmem0 with hin | hge
    · simp at hin
    · have := startCursor_gt p.isExtended t0
      omega

set_option maxHeartbeats 2000000 in
/-- Witness for `claim1_next_strictly_increasing`: `0 12 * * *` from
instant 43170 (1970-01-01 11:59:30) yields exactly `[43200]` (12:00:00). -/
theorem claim1_next_strictly_increasing_witness :
    List.Pairwise (fun a b : Nat => a < b) [43200] ∧
      List.Nodup [43200] ∧ 43170 ∉ [43200] :=
  claim1_next_strictly_increasing (JSVal.str "0 12 * * *") 1 43170 [43200] rfl

/-! ## Claim C2 — the iteration ceiling

The source uses `maxIterations = 366 * 24 * 60 * 60` for **both** forms,
so a standard (5-field) expression is scanned for up to 366·24·60·60
minute steps (about 60 years), not the claimed 366·24·60. -/

theorem scanFrom_stop (flds : CronFields) (isExt : Bool) (count fuel cur : Nat)
    (acc : List Nat) (h : count ≤ acc.length) :
    scanFrom flds isExt count fuel cur acc = acc.reverse := by
  cases fuel <;> simp [scanFrom, h]

theorem scanFrom_succ (flds : CronFields) (isExt : Bool) (count fuel cur : Nat)
    (acc : List Nat) :
    scanFrom flds isExt count (fuel + 1) cur acc =
      if count ≤ acc.length then acc.reverse
      else scanFrom flds isExt count fuel (cur + scanUnit isExt)
        (if matchesAt flds isExt cur then cur :: acc else acc) := rfl

/-- Fuel spent on a match-free stretch just moves the cursor. -/
theorem scanFrom_skip (flds : CronFields) (isExt : Bool) (count : Nat) :
    ∀ (f f' cur : Nat) (acc : List Nat),
      (∀ j, j < f → matchesAt flds isExt (cur + scanUnit isExt * j) = false) →
      scanFrom flds isExt count (f + f') cur acc =
        scanFrom flds isExt count f' (cur + scanUnit isExt * f) acc := by
  intro f
  induction f with
  | zero => intro f' cur acc _; simp
  | succ n ih =>
    intro f' cur acc h
    by_cases hc : count ≤ acc.length
    · rw [scanFrom_stop _ _ _ _ _ _ hc, scanFrom_stop _ _ _ _ _ _ hc]
    · have hstep : n + 1 + f' = (n + f') + 1 := by omega
      rw [hstep, scanFrom_succ, if_neg hc]
      have h0 : matchesAt flds isExt cur = false := by
        simpa using h 0 (by omega)
      rw [if_neg (by simp [h0])]
      have hsh : ∀ j, j < n →
          matchesAt flds isExt (cur + scanUnit isExt + scanUnit isExt * j) = false := by
        intro j hj
        have := h (j + 1) (by omega)
        have he : cur + scanUnit isExt * (j + 1)
            = cur + scanUnit isExt + scanUnit isExt * j := by ring
        rw [he] at this
        exact this
      rw [ih f' (cur + scanUnit isExt) acc hsh]
      have he : cur + scanUnit isExt + scanUnit isExt * n
          = cur + scanUnit isExt * (n + 1) := by ring
      rw [he]

/-- The parsed fields of `0 0 29 2 *`. -/
def parsed29 : CronFields :=
  ⟨none, ⟨"0", CronFieldType.single, [some 0]⟩,
   ⟨"0", CronFieldType.single, [some 0]⟩,
   ⟨"29", CronFieldType.single, [some 29]⟩,
   ⟨"2", CronFieldType.single, [some 2]⟩,
   ⟨"*", CronFieldType.wildcard,
    [some 0, some 1, some 2, some 3, some 4, some 5, some 6, some 7]⟩⟩

theorem parse29 :
    parse (JSVal.str "0 0 29 2 *") = Except.ok ⟨"0 0 29 2 *", false, parsed29⟩ := rfl

set_option maxRecDepth 4000 in
set_option maxHeartbeats 2000000 in
/-- Between 2022-03-01 (day 19052) and 2024-02-28 (day 19781) no calendar
day is a February 29. -/
theorem noFeb29 : ∀ i, i < 730 →
    ¬((civilMD (19052 + i)).1 = 2 ∧ (civilMD (19052 + i)).2 = 29) := by decide

theorem matches29_requires (t : Nat) (h : matchesAt parsed29 false t = true) :
    (civilMD (t / 86400)).1 = 2 ∧ (civilMD (t / 86400)).2 = 29 := by
  unfold matchesAt at h
  rw [Bool.and_eq_true, Bool.and_eq_true, Bool.and_eq_true, Bool.and_eq_true,
    Bool.and_eq_true] at h
  obtain ⟨⟨⟨⟨⟨_, _⟩, _⟩, hdom⟩, hmon⟩, _⟩ := h
  have hd : ((getDateOf t : Nat) : Int) = 29 := by
    simpa [parsed29] using hdom
  have hm : ((getMonthOf t : Nat) : Int) = 2 := by
    simpa [parsed29] using hmon
  have hd' : getDateOf t = 29 := by exact_mod_cast hd
  have hm' : getMonthOf t = 2 := by exact_mod_cast hm
  exact ⟨hm', hd'⟩

theorem nomatch29 : ∀ j, j < 1051199 →
    matchesAt parsed29 false (1646092860 + scanUnit false * j) = false := by
  intro j hj
  have hu : scanUnit false = 60 := rfl
  rw [hu]
  cases hm : matchesAt parsed29 false (1646092860 + 60 * j) with
  | false => rfl
  | true =>
    exfalso
    obtain ⟨hmon, hday⟩ := matches29_requires _ hm
    have hlow : 19052 ≤ (1646092860 + 60 * j) / 86400 := by
      have h1 : (1646092800 : Nat) ≤ 1646092860 + 60 * j := by omega
      have h2 := Nat.div_le_div_right (c := 86400) h1
      norm_num at h2
      exact h2
    have hhigh : (1646092860 + 60 * j) / 86400 ≤ 19781 := by
      have h1 : 1646092860 + 60 * j ≤ 1709164740 := by omega
      have h2 := Nat.div_le_div_right (c := 86400) h1
      norm_num at h2
      omega
    have hno := noFeb29 ((1646092860 + 60 * j) / 86400 - 19052) (by omega)
    apply hno
    have he : 19052 + ((1646092860 + 60 * j) / 86400 - 19052)
        = (1646092860 + 60 * j) / 86400 := by omega
    rw [he]
    exact ⟨hmon, hday⟩

/-- Claim C2, as stated, is false for standard expressions: scanning
`0 0 29 2 *` (a 5-field expression) from 2022-03-01 00:00:00 (instant
1646092800) finds 2024-02-29 00:00:00 (instant 1709164800) — the loop ran
far past 366·24·60 minute steps, whereas under the claimed ceiling the
scan would have stopped empty, as the second and third conjuncts show. -/
theorem claim2_counterexample :
    nextOccurrences (JSVal.str "0 0 29 2 *") 1 1646092800 = Except.ok [1709164800]
    ∧ scanFrom parsed29 false 1 (366 * 24 * 60) (startCursor false 1646092800) [] = []
    ∧ ¬(1709164800 < startCursor false 1646092800
          + scanUnit false * (366 * 24 * 60)) := by
  have hsc : startCursor false 1646092800 = 1646092860 := by
    norm_num [startCursor]
  refine ⟨?_, ?_, ?_⟩
  · unfold nextOccurrences
    rw [parse29]
    simp only [Bind.bind, Except.bind, pure, Except.pure, Except.ok.injEq]
    rw [hsc]
    have hmax : maxIterations = 1051199 + 30571201 := by norm_num [maxIterations]
    rw [hmax, scanFrom_skip parsed29 false 1 1051199 30571201 1646092860 [] nomatch29]
    have he : 1646092860 + scanUnit false * 1051199 = 1709164800 := by
      norm_num [scanUnit]
    rw [he]
    have h3 : (30571201 : Nat) = 30571200 + 1 := by norm_num
    rw [h3, scanFrom_succ, if_neg (by simp)]
    have hmatch : matchesAt parsed29 false 1709164800 = true := by decide
    rw [if_pos (by rw [hmatch])]
    rw [scanFrom_stop _ _ _ _ _ _ (by simp)]
    rfl
  · rw [hsc]
    have hceil : (366 * 24 * 60 : Nat) = 527040 + 0 := by norm_num
    rw [hceil,
      scanFrom_skip parsed29 false 1 527040 0 1646092860 []
        (fun j hj => nomatch29 j (by omega))]
    rfl
  · rw [hsc]
    norm_num [scanUnit]

/-- Results lie in the window the fuel allows, and never exceed `count`. -/
theorem scanFrom_bounds (flds : CronFields) (isExt : Bool) (count : Nat) :
    ∀ (fuel cur : Nat) (acc : List Nat),
      acc.length ≤ count →
      (scanFrom flds isExt count fuel cur acc).length ≤ count
      ∧ ∀ x ∈ scanFrom flds isExt count fuel cur acc,
          x ∈ acc ∨ (cur ≤ x ∧ x < cur + scanUnit isExt * fuel) := by
  intro fuel
  induction fuel with
  | zero =>
    intro cur acc hlen
    refine ⟨by simpa [scanFrom] using hlen, ?_⟩
    intro x hx
    exact Or.inl (by simpa [scanFrom] using hx)
  | succ n ih =>
    intro cur acc hlen
    have hu := scanUnit_pos isExt
    simp only [scanFrom]
    split
    · refine ⟨by simpa using hlen, ?_⟩
      intro x hx
      exact Or.inl (by simpa using hx)
    · rename_i hc
      by_cases hm : matchesAt flds isExt cur = true
      · rw [if_pos hm]
        have hlen' : (cur :: acc).length ≤ count := by
          simp only [List.length_cons]
          omega
        obtain ⟨hl, hmem⟩ := ih (cur + scanUnit isExt) (cur :: acc) hlen'
        refine ⟨hl, ?_⟩
        intro x hx
        rcases hmem x hx with hxa | hr
        · rcases List.mem_cons.mp hxa with rfl | hxa'
          · refine Or.inr ⟨le_rfl, ?_⟩
            have : scanUnit isExt * (n + 1) = scanUnit isExt * n + scanUnit isExt := by
              ring
            omega
          · exact Or.inl hxa'
        · refine Or.inr ⟨by omega, ?_⟩
          have heq : cur + scanUnit isExt + scanUnit isExt * n
              = cur + scanUnit isExt * (n + 1) := by ring
          omega
      · rw [if_neg hm]
        obtain ⟨hl, hmem⟩ := ih (cur + scanUnit isExt) acc hlen
        refine ⟨hl, ?_⟩
        intro x hx
        rcases hmem x hx with hxa | hr
        · exact Or.inl hxa
        · refine Or.inr ⟨by omega, ?_⟩
          have heq : cur + scanUnit isExt + scanUnit isExt * n
              = cur + scanUnit isExt * (n + 1) := by ring
          omega

/-- Claim C2 (amended): `nextOccurrences` uses the single ceiling
366·24·60·60 iterations whatever the advance unit — 366 days of seconds
on an extended expression but about 60 years of minutes on a standard one
— every returned instant lies inside the window those iterations can
reach, at most `count` matches are returned, and exhausting the ceiling
yields a short (possibly empty) list rather than an error. -/
theorem claim2_iteration_ceiling (v : JSVal) (count t0 : Nat) (l : List Nat)
    (h : nextOccurrences v count t0 = Except.ok l) :
    ∃ p, parse v = Except.ok p ∧ l.length ≤ count
      ∧ ∀ x ∈ l, startCursor p.isExtended t0 ≤ x
          ∧ x < startCursor p.isExtended t0
              + scanUnit p.isExtended * (366 * 24 * 60 * 60) := by
  unfold nextOccurrences at h
  cases hp : parse v with
  | error m =>
    rw [hp] at h
    exact absurd h (by simp [Bind.bind, Except.bind])
  | ok p =>
    rw [hp] at h
    simp only [Bind.bind, Except.bind, pure, Except.pure, Except.ok.injEq] at h
    subst h
    obtain ⟨hlen, hmem⟩ := scanFrom_bounds p.fields p.isExtended count
      maxIterations (startCursor p.isExtended t0) [] (by simp)
    refine ⟨p, rfl, hlen, ?_⟩
    intro x hx
    rcases hmem x hx with h0 | hr
    · simp at h0
    · exact ⟨hr.1, by simpa [maxIterations] using hr.2⟩

set_option maxHeartbeats 1000000 in
/-- Witness for `claim2_iteration_ceiling`: `31 59 11 * * *` from instant
43170 matches one second later, at 43171. -/
theorem claim2_iteration_ceiling_witness :
    ∃ p, parse (JSVal.str "31 59 11 * * *") = Except.ok p
      ∧ ([43171] : List Nat).length ≤ 1
      ∧ ∀ x ∈ ([43171] : List Nat), startCursor p.isExtended 43170 ≤ x
          ∧ x < startCursor p.isExtended 43170
              + scanUnit p.isExtended * (366 * 24 * 60 * 60) :=
  claim2_iteration_ceiling (JSVal.str "31 59 11 * * *") 1 43170 [43171] rfl

/-! ## Claim C10 — only the first second value is printed -/

set_option maxHeartbeats 2000000 in
/-- Claim C10: in the specific-times branch (no "every …" pattern
applies), the time clause built for an extended expression reads the
second field only through `values[0]`; fields differing in any later
second values produce the identical clause. -/
theorem claim10_seconds_first_only (f f' : CronFields)
    (hmin : f.minute = f'.minute) (hhour : f.hour = f'.hour)
    (hsec : timeSecondArg f true = timeSecondArg f' true)
    (hna : ¬(f.minute.kind = CronFieldType.wildcard
            ∧ f.hour.kind = CronFieldType.wildcard))
    (hnb : ¬(f.minute.kind = CronFieldType.step
            ∧ strStartsWith f.minute.raw "*/" = true
            ∧ f.hour.kind = CronFieldType.wildcard))
    (hnc : ¬(f.hour.kind = CronFieldType.step
            ∧ strStartsWith f.hour.raw "*/" = true
            ∧ f.minute.kind = CronFieldType.single
            ∧ f.minute.values.getD 0 none = some 0)) :
    buildTimePart f true = buildTimePart f' true
    ∧ explain (JSVal.str "5,30 0 12 * * *") = explain (JSVal.str "5 0 12 * * *") := by
  have e1 : f'.minute = f.minute := hmin.symm
  have e2 : f'.hour = f.hour := hhour.symm
  have e3 : timeSecondArg f' true = timeSecondArg f true := hsec.symm
  refine ⟨?_, rfl⟩
  unfold buildTimePart
  simp only [e1, e2, e3]
  simp only [if_neg hna, if_neg hnb, if_neg hnc]

/-- Witness for `claim10_seconds_first_only`: two field sets that differ
only in the tail of the second field's values give the same time clause. -/
theorem claim10_seconds_first_only_witness :
    buildTimePart
      ⟨some ⟨"5", CronFieldType.single, [some 5]⟩,
       ⟨"0", CronFieldType.single, [some 0]⟩,
       ⟨"12", CronFieldType.single, [some 12]⟩,
       ⟨"1", CronFieldType.single, [some 1]⟩,
       ⟨"1", CronFieldType.single, [some 1]⟩,
       ⟨"1", CronFieldType.single, [some 1]⟩⟩ true
    = buildTimePart
      ⟨some ⟨"5,30", CronFieldType.list, [some 5, some 30]⟩,
       ⟨"0", CronFieldType.single, [some 0]⟩,
       ⟨"12", CronFieldType.single, [some 12]⟩,
       ⟨"1", CronFieldType.single, [some 1]⟩,
       ⟨"1", CronFieldType.single, [some 1]⟩,
       ⟨"1", CronFieldType.single, [some 1]⟩⟩ true :=
  (claim10_seconds_first_only _ _ rfl rfl rfl
    (by decide) (by decide) (by decide)).1

end CronExplain
